import Mathlib

/-!
# Verification of the tts_text data-combination core

Shallow embedding of the algorithmic core of the `tts_text` repository:

* `src/tts_text/utils.py` — `extract_sentences`, `interleave_datasets`
* `src/tts_text/phoneme_covering.py` — `count_phoneme_occurences`,
  `build_phoneme_covering_dataset`
* `src/scripts/build_tts_dataset.py` — the configuration check in `main`

Python strings are modelled as `List Char`; Python `dict`s keeping insertion
order are modelled as association lists; Python `set`s of names as `Finset`.
The global `random` module, which is fully determined by `random.seed`, is
modelled by an explicit `RandomState` value holding the behaviour of the
seeded generator (the shuffle permutation and the streams of draws).
-/

namespace TtsText

/-! ## Python string primitives -/

/-- Characters removed by Python `str.strip(" \t\n")`
(used in `extract_sentences`). -/
def isStripChar (c : Char) : Bool :=
  c = ' ' || c = '\t' || c = '\n'

/-- Strip characters satisfying `p` from both ends of a string,
as Python `str.strip` does. -/
def pyStripChars (p : Char → Bool) (l : List Char) : List Char :=
  ((l.dropWhile p).reverse.dropWhile p).reverse

/-- Python `str.strip(" \t\n")` as used in `extract_sentences`. -/
def pyStripSTN (l : List Char) : List Char := pyStripChars isStripChar l

/-- Python `str.strip()` (all whitespace) as used in
`count_phoneme_occurences`; ASCII whitespace suffices for the texts here. -/
def pyStripWS (l : List Char) : List Char := pyStripChars Char.isWhitespace l

/-- Python `re.sub(" +", " ", s)`: collapse every run of space characters to a
single space (the last space of each run is kept; spaces are
indistinguishable, so this is the same string). -/
def collapseSpaces : List Char → List Char
  | [] => []
  | [c] => [c]
  | c :: c' :: rest =>
    if c = ' ' ∧ c' = ' ' then collapseSpaces (c' :: rest)
    else c :: collapseSpaces (c' :: rest)

/-- Python `str.split(sep)` for a one-character separator: splits at every
occurrence, keeping empty pieces (`"".split(" ") == [""]`). -/
def pySplitOn (sep : Char) : List Char → List (List Char)
  | [] => [[]]
  | c :: rest =>
    match pySplitOn sep rest with
    | [] => [[]]
    | w :: ws => if c = sep then [] :: w :: ws else (c :: w) :: ws

/-! ## Phoneme-occurrence counting (`count_phoneme_occurences`) -/

/-- One entry of the phoneme definition file: a named phonetic unit with its
example surface word-forms. -/
structure Phoneme where
  name : String
  examples : List (List Char)

/-- The token list of a document, per `count_phoneme_occurences`:
`document_text = re.sub(" +", " ", document_text).strip()` followed by
`words = document_text.split(" ")`. -/
def phonemeWords (text : List Char) : List (List Char) :=
  pySplitOn ' ' (pyStripWS (collapseSpaces text))

/-- The `found_phonemes` list built by `count_phoneme_occurences` for one
language's phoneme list: for each phoneme, for each example word, the
phoneme's name is appended whenever `counter[word] > 0`, where `counter` is
the frequency table of the document's tokens. -/
def found_phonemes (text : List Char) (phonemes : List Phoneme) : List String :=
  phonemes.flatMap fun p =>
    p.examples.filterMap fun w =>
      if 0 < (phonemeWords text).count w then some p.name else none

/-- Modelled from the spec: the same presence computation, but with the
document text case-normalized (lower-cased) first, as the claim's words
"lookups in the case-normalized ... document text" require. The code in
`count_phoneme_occurences` performs no case normalization; this definition
exists only to be compared with `found_phonemes`. -/
def found_phonemes_caseNormalized (text : List Char) (phonemes : List Phoneme) :
    List String :=
  found_phonemes (text.map Char.toLower) phonemes

/-! ## Phoneme covering set (`build_phoneme_covering_dataset`) -/

/-- A document of the sorted stream: its text together with the precomputed
`all_phonemes` annotation (names of units found in it). -/
structure RankedDocument where
  text : String
  phonemes : List String

/-- One document's update of the remaining coverage-target map
(`all_phonemes` in the code): every key that occurs in the document's phoneme
list is decremented once, and removed exactly when the count reaches zero;
other entries are untouched.  Counts are integers, as in Python. -/
def coverUpdate (m : List (String × Int)) (ph : List String) :
    List (String × Int) :=
  m.filterMap fun kv =>
    if kv.1 ∈ ph then
      if kv.2 - 1 = 0 then none else some (kv.1, kv.2 - 1)
    else some kv

/-- `new_phonemes = set(all_phonemes.keys()).intersection(document_phonemes)`,
as a list of the map's keys occurring in the document. -/
def newPhonemes (m : List (String × Int)) (ph : List String) : List String :=
  (m.map Prod.fst).filter fun k => decide (k ∈ ph)

/-- The selection loop of `build_phoneme_covering_dataset`: documents are
processed in stream order; the loop stops when the target map is exhausted;
a document is appended to the output exactly when `new_phonemes` is
non-empty.  Returns the list of selected texts — exactly what the Python
function returns. -/
def build_phoneme_covering_dataset :
    List RankedDocument → List (String × Int) → List String
  | [], _ => []
  | d :: rest, m =>
    if m.isEmpty then []
    else
      let m2 := coverUpdate m d.phonemes
      if (newPhonemes m d.phonemes).isEmpty then
        build_phoneme_covering_dataset rest m2
      else
        d.text :: build_phoneme_covering_dataset rest m2

/-- The final value of the `all_phonemes` map when the loop of
`build_phoneme_covering_dataset` finishes — the still-unsatisfied coverage
target.  The Python function computes this state but discards it. -/
def coverRemaining :
    List RankedDocument → List (String × Int) → List (String × Int)
  | [], m => m
  | d :: rest, m =>
    if m.isEmpty then m else coverRemaining rest (coverUpdate m d.phonemes)

/-- Modelled from the spec: "a document is included iff, at the moment it is
processed in stream order, the intersection of its phoneme-unit set with the
still-required units is non-empty"; every document of the stream is
considered, each processing step performing the coverage-target update. -/
def coverSelectedSpec :
    List RankedDocument → List (String × Int) → List String
  | [], _ => []
  | d :: rest, m =>
    if ∃ kv ∈ m, kv.1 ∈ d.phonemes then
      d.text :: coverSelectedSpec rest (coverUpdate m d.phonemes)
    else
      coverSelectedSpec rest (coverUpdate m d.phonemes)

/-! ## Configuration check (`build_tts_dataset.main`) -/

/-- The check in `main`:
`datasets_in_config = set(cfg.sampling_probabilities.keys()).union(cfg.include_entire_dataset)`
and a `ValueError` is raised iff `datasets_in_config != set(datasets.keys())`.
Returns `true` iff the error is raised. -/
def config_mismatch (sampling_keys : Finset String)
    (include_entire : List String) (dataset_names : Finset String) : Bool :=
  decide (sampling_keys ∪ include_entire.toFinset ≠ dataset_names)

/-- The partition of the built datasets performed by `main` after the check:
`non_sampling_datasets = {name: datasets[name] for name in cfg.include_entire_dataset}`
and `sampling_datasets = {name: ds for name, ds in datasets.items() if name not in non_sampling_datasets}`. -/
def split_datasets (datasets : List (String × List String))
    (include_entire : List String) :
    List (String × List String) × List (String × List String) :=
  (include_entire.map fun name => (name, (datasets.lookup name).getD []),
   datasets.filter fun kv => decide (kv.1 ∉ include_entire))

/-! ## Sentence extraction (`extract_sentences`) -/

/-- The ellipsis string tested by `sentence.startswith("...")` /
`sentence.endswith("...")`. -/
def ellipsisChars : List Char := ['.', '.', '.']

/-- Letters of the character class `[A-ZÆØÅa-zæøå]` of the abbreviation
regex. -/
def isDanishLetter (c : Char) : Bool :=
  ('A' ≤ c && c ≤ 'Z') || ('a' ≤ c && c ≤ 'z') ||
    c = 'Æ' || c = 'Ø' || c = 'Å' || c = 'æ' || c = 'ø' || c = 'å'

/-- `re.search(r"\.[A-ZÆØÅa-zæøå]+\.$", sentence) is not None`: the sentence
ends in a dot that is preceded by a non-empty run of letters preceded by
another dot.  (Since the run of letters before the final dot is contiguous,
the regex matches iff the maximal such run is non-empty and is preceded by a
dot.) -/
def abbrevTail (s : List Char) : Bool :=
  match s.reverse with
  | '.' :: rest =>
    decide (rest.takeWhile isDanishLetter ≠ []) &&
      decide ((rest.dropWhile isDanishLetter).head? = some '.')
  | _ => false

/-- `sentence.replace("\n", " ")`. -/
def replaceNewlines (s : List Char) : List Char :=
  s.map fun c => if c = '\n' then ' ' else c

/-- `extract_sentences` from `utils.py`, parameterised by the external
`nltk.sent_tokenize` sentence splitter (`tok`).  The steps, in source order:
split each corpus entry on newlines; sentence-tokenize each line; replace
newlines by spaces; drop sentences beginning or ending in `"..."`; drop
sentences matching the abbreviation regex; collapse repeated spaces; strip
`" \t\n"`; keep sentences longer than `min_sentence_length`. -/
def extract_sentences (tok : List Char → List (List Char))
    (corpus : List (List Char)) (min_sentence_length : ℕ) :
    List (List Char) :=
  let corpus1 := corpus.flatMap (pySplitOn '\n')
  let sentences := corpus1.flatMap tok
  let sentences := sentences.map replaceNewlines
  let sentences := sentences.filter fun s =>
    !(ellipsisChars.isPrefixOf s) && !(ellipsisChars.isSuffixOf s)
  let sentences := sentences.filter fun s => !(abbrevTail s)
  let sentences := sentences.map collapseSpaces
  let sentences := sentences.map pyStripSTN
  sentences.filter fun s => decide (min_sentence_length < s.length)

/-! ## Weighted interleaver (`interleave_datasets`) -/

/-- The behaviour of the process-wide `random` module once
`random.seed(random_seed)` has run: all later draws are a deterministic
function of the seed.  `shuffle` is the permutation `random.shuffle` applies
to the joined non-sampling list; `choiceU` is the stream of `random()` values
used by `random.choices`; `pick` is the stream driving `random.randrange`
(taken mod the range). -/
structure RandomState where
  shuffle : List String → List String
  choiceU : ℕ → ℚ
  pick : ℕ → ℕ

/-- `itertools.accumulate(weights)` inside `random.choices`. -/
def cumWeights (ws : List ℚ) : List ℚ := (ws.scanl (· + ·) 0).tail

/-- The index chosen by
`random.choices(population, weights, k=1)` when the uniform draw is `u`:
`bisect.bisect(cum_weights, u * total, 0, hi)` with `hi = len(population)-1`.
For the nondecreasing `cum_weights` arising from nonnegative weights, the
bisection equals the number of entries among the first `hi` that are
`≤ u * total`, clamped to `hi`. -/
def choices_index (u : ℚ) (ws : List ℚ) : ℕ :=
  min (ws.length - 1)
    (((cumWeights ws).take (ws.length - 1)).countP fun c => decide (c ≤ u * ws.sum))

/-- The sampling loop of `interleave_datasets` (phase 2), with explicit fuel;
`fuel` is an upper bound on the remaining iterations and never runs out when
it starts at one more than the number of remaining items (each iteration
either stops or removes one item).  One iteration: the `while` guard
(`len(sampling_datasets) > 0`); `random.choices` (whose preconditions —
matching lengths and positive total weight — raise `ValueError` otherwise,
modelled as stopping the stream); the emptiness break; `random.randrange`;
`pop`; `yield`. -/
def phase2Fuel (rng : RandomState) :
    ℕ → ℕ → List (List String) → List ℚ → List String
  | 0, _, _, _ => []
  | fuel + 1, k, dss, ws =>
    if dss.isEmpty then []
    else if ws.length ≠ dss.length then []
    else if ws.sum ≤ 0 then []
    else
      let c := choices_index (rng.choiceU k) ws
      let ds := dss.getD c []
      if ds.isEmpty then []
      else
        let i := rng.pick k % ds.length
        ds.getD i "" :: phase2Fuel rng fuel (k + 1) (dss.set c (ds.eraseIdx i)) ws

/-- Phase 2 of `interleave_datasets`, starting with enough fuel. -/
def phase2 (rng : RandomState) (k : ℕ) (dss : List (List String))
    (ws : List ℚ) : List String :=
  phase2Fuel rng ((dss.map List.length).sum + 1) k dss ws

/-- The full output sequence of `interleave_datasets`: phase 1 shuffles the
concatenation of the non-sampling datasets (a fresh list, built by
`list(it.chain(*non_sampling_datasets))`) and emits it, then phase 2 samples
from a deep copy of the sampling datasets. -/
def interleave_datasets (rng : RandomState)
    (non_sampling_datasets sampling_datasets : List (List String))
    (sampling_probabilities : List ℚ) : List String :=
  rng.shuffle non_sampling_datasets.flatten ++
    phase2 rng 0 sampling_datasets sampling_probabilities

/-- A concrete `RandomState` used to instantiate hypotheses on witnesses:
the identity shuffle and constantly-zero draw streams. -/
def idRandom : RandomState :=
  { shuffle := fun l => l, choiceU := fun _ => 0, pick := fun _ => 0 }

/-! ### The generator as a state machine over caller-owned data

To state the frame property (the generator never mutates the caller's
collections) the heap is made explicit: the caller's two list-of-lists live
in dedicated fields, and the generator's working storage is a separate field
initialised — per `sampling_datasets = deepcopy(sampling_datasets)` — to a
copy of the caller's sampling collections.  Each step of the machine is one
iteration of the sampling loop, writing only the working copy and the output
buffer. -/

structure InterleaveState where
  caller_non_sampling : List (List String)
  caller_sampling : List (List String)
  work : List (List String)
  emitted : List String
  k : ℕ
  halted : Bool

/-- The state after phase 1: the caller's collections are untouched; the
emitted buffer holds the shuffle of a fresh concatenation of the
non-sampling datasets; the working copy holds the deep copy of the sampling
datasets. -/
def interleaveInit (rng : RandomState)
    (non_sampling_datasets sampling_datasets : List (List String)) :
    InterleaveState :=
  { caller_non_sampling := non_sampling_datasets
    caller_sampling := sampling_datasets
    work := sampling_datasets
    emitted := rng.shuffle non_sampling_datasets.flatten
    k := 0
    halted := false }

/-- One iteration of the sampling loop on the explicit state. -/
def interleaveStep (rng : RandomState) (ws : List ℚ)
    (s : InterleaveState) : InterleaveState :=
  if s.halted then s
  else if s.work.isEmpty then { s with halted := true }
  else if ws.length ≠ s.work.length then { s with halted := true }
  else if ws.sum ≤ 0 then { s with halted := true }
  else
    let c := choices_index (rng.choiceU s.k) ws
    let ds := s.work.getD c []
    if ds.isEmpty then { s with halted := true }
    else
      let i := rng.pick s.k % ds.length
      { s with
          work := s.work.set c (ds.eraseIdx i)
          emitted := s.emitted ++ [ds.getD i ""]
          k := s.k + 1 }

/-! ## Helper lemmas -/

theorem sum_map_pos_iff {α : Type} (l : List α) (f : α → ℕ) :
    0 < (l.map f).sum ↔ ∃ x ∈ l, 0 < f x := by
  induction l with
  | nil => simp
  | cons a t ih => simp [add_pos_iff, ih]

theorem coverUpdate_nil (ph : List String) : coverUpdate [] ph = [] := rfl

theorem coverSelectedSpec_nil (docs : List RankedDocument) :
    coverSelectedSpec docs [] = [] := by
  induction docs with
  | nil => rfl
  | cons d rest ih => simp [coverSelectedSpec, coverUpdate, ih]

theorem newPhonemes_isEmpty_iff (m : List (String × Int)) (ph : List String) :
    (newPhonemes m ph).isEmpty = true ↔ ¬ ∃ kv ∈ m, kv.1 ∈ ph := by
  simp [newPhonemes, List.isEmpty_iff, List.filter_eq_nil_iff]

theorem coverUpdate_pos (m : List (String × Int)) (ph : List String)
    (h : ∀ kv ∈ m, 0 < kv.2) : ∀ kv ∈ coverUpdate m ph, 0 < kv.2 := by
  intro kv hkv
  simp only [coverUpdate, List.mem_filterMap] at hkv
  obtain ⟨kv₀, h₀, heq⟩ := hkv
  have hpos := h kv₀ h₀
  by_cases hmem : kv₀.1 ∈ ph
  · simp only [hmem, if_true] at heq
    by_cases hz : kv₀.2 - 1 = 0
    · simp [hz] at heq
    · simp only [hz, if_neg, if_false, Option.some.injEq] at heq
      subst heq
      omega
  · simp only [hmem, if_false, Option.some.injEq] at heq
    subst heq
    exact hpos

theorem coverRemaining_pos (docs : List RankedDocument) :
    ∀ m : List (String × Int), (∀ kv ∈ m, 0 < kv.2) →
      ∀ kv ∈ coverRemaining docs m, 0 < kv.2 := by
  induction docs with
  | nil => intro m h; exact h
  | cons d rest ih =>
    intro m h
    unfold coverRemaining
    by_cases hm : m.isEmpty
    · simpa [hm] using h
    · simpa [hm] using ih (coverUpdate m d.phonemes) (coverUpdate_pos m d.phonemes h)

/-! ## Claims about the phoneme coverage selector -/

/-- C9: a document is included in the output of
`build_phoneme_covering_dataset` iff, at the moment it is processed in
stream order, the intersection of its phoneme set with the still-required
units is non-empty: the code loop agrees with the spec-modelled selection on
every stream and every coverage target.  In particular a document whose
phonemes are all already satisfied (empty intersection) is never included. -/
theorem C9_selection_iff_new_intersection (docs : List RankedDocument)
    (m : List (String × Int)) :
    build_phoneme_covering_dataset docs m = coverSelectedSpec docs m := by
  induction docs generalizing m with
  | nil => rfl
  | cons d rest ih =>
    by_cases hm : m.isEmpty
    · have hm' : m = [] := List.isEmpty_iff.mp hm
      subst hm'
      simp [build_phoneme_covering_dataset, coverSelectedSpec_nil]
    · unfold build_phoneme_covering_dataset coverSelectedSpec
      simp only [hm, if_false, Bool.false_eq_true]
      by_cases hnew : ∃ kv ∈ m, kv.1 ∈ d.phonemes
      · have : (newPhonemes m d.phonemes).isEmpty = false := by
          cases h : (newPhonemes m d.phonemes).isEmpty
          · rfl
          · exact absurd ((newPhonemes_isEmpty_iff m d.phonemes).mp h) (not_not.mpr hnew)
        simp [this, hnew, ih]
      · have : (newPhonemes m d.phonemes).isEmpty = true :=
          (newPhonemes_isEmpty_iff m d.phonemes).mpr hnew
        simp [this, hnew, ih]

/-- C10: throughout the selection loop every count stored in the remaining
coverage-target map is strictly positive, provided every initial per-phoneme
quota is positive — the state after processing any prefix of the stream has
only positive counts (an entry is decremented at most once per document and
removed exactly when it reaches zero). -/
theorem C10_remaining_counts_positive (docs : List RankedDocument)
    (m : List (String × Int)) (hpos : ∀ kv ∈ m, 0 < kv.2) (i : ℕ) :
    ∀ kv ∈ coverRemaining (docs.take i) m, 0 < kv.2 :=
  coverRemaining_pos (docs.take i) m hpos

/-- Witness for C10: for the stream `[⟨"t", ["X"]⟩]` and target `X ↦ 2`, the
map after the first step is `X ↦ 1`, and the theorem yields its
positivity. -/
theorem C10_witness :
    (("X", (1 : Int)) ∈ coverRemaining (([⟨"t", ["X"]⟩] : List RankedDocument).take 1) [("X", 2)]) ∧
      (0 : Int) < 1 :=
  ⟨by decide,
    C10_remaining_counts_positive [⟨"t", ["X"]⟩] [("X", 2)] (by decide) 1
      ("X", 1) (by decide)⟩

/-- C2, counterexample: on the stream `[⟨"t1", ["X"]⟩]` with target
`{X ↦ 1, Z ↦ 1}` the stream is exhausted while `Z` is still outstanding, yet
`build_phoneme_covering_dataset` returns only the selected texts `["t1"]` —
the same bare list it would return on a fully covered run — with the
non-empty remainder `{Z ↦ 1}` discarded, contradicting the claim that the
unsatisfied units are returned alongside the selected documents. -/
theorem C2_counterexample :
    build_phoneme_covering_dataset [⟨"t1", ["X"]⟩] [("X", 1), ("Z", 1)] = ["t1"] ∧
      coverRemaining [⟨"t1", ["X"]⟩] [("X", 1), ("Z", 1)] = [("Z", 1)] ∧
      build_phoneme_covering_dataset [⟨"t1", ["X"]⟩] [("X", 1)] = ["t1"] ∧
      coverRemaining [⟨"t1", ["X"]⟩] [("X", 1)] = [] := by
  exact ⟨by decide, by decide, by decide, by decide⟩

/-- C2, amended: `build_phoneme_covering_dataset` returns only the selected
documents and does not surface the still-unsatisfied units — an exhausted
stream with outstanding coverage produces a return value identical to that
of a fully covered run, so partial coverage is not observable from the
result (the remainder `coverRemaining` is computed by the loop but
discarded). -/
theorem C2_partial_coverage_not_surfaced :
    ∃ (docs : List RankedDocument) (mFull mPart : List (String × Int)),
      coverRemaining docs mFull = [] ∧
      coverRemaining docs mPart ≠ [] ∧
      build_phoneme_covering_dataset docs mFull =
        build_phoneme_covering_dataset docs mPart := by
  exact ⟨[⟨"d", ["A"]⟩], [("A", 1)], [("A", 1), ("B", 1)], by decide, by decide, by decide⟩

/-! ## Claims about phoneme-occurrence counting -/

/-- C5, counterexample: the document `"Hest"` with a phoneme unit whose
example word is `"hest"`.  The code's lookup is case-sensitive and records
the unit as absent, while the claim's case-normalized lookup records it as
present — so presence in the code is not equivalent to positivity of the
case-normalized sum. -/
theorem C5_counterexample :
    found_phonemes ("Hest".data) [⟨"h", ["hest".data]⟩] = [] ∧
      found_phonemes_caseNormalized ("Hest".data) [⟨"h", ["hest".data]⟩] = ["h"] := by
  exact ⟨by decide, by decide⟩

/-- C5, amended: a phoneme unit's name is recorded in `found_phonemes` iff
the sum, over the unit's example word-forms, of exact-token (case-sensitive —
the code performs no case normalization) frequency lookups in the
whitespace-collapsed, stripped, space-tokenized document text is positive;
no stemming or substring matching. -/
theorem C5_present_iff_sum_pos (text : List Char) (phonemes : List Phoneme)
    (name : String) :
    name ∈ found_phonemes text phonemes ↔
      ∃ p ∈ phonemes, p.name = name ∧
        0 < (p.examples.map fun w => (phonemeWords text).count w).sum := by
  unfold found_phonemes
  simp only [List.mem_flatMap, List.mem_filterMap, sum_map_pos_iff]
  constructor
  · rintro ⟨p, hp, w, hw, heq⟩
    by_cases hc : 0 < (phonemeWords text).count w
    · simp only [hc, if_true, Option.some.injEq] at heq
      exact ⟨p, hp, heq, w, hw, hc⟩
    · simp [hc] at heq
  · rintro ⟨p, hp, hname, w, hw, hc⟩
    exact ⟨p, hp, w, hw, by simp [hc, hname]⟩

/-! ## Claims about the configuration check -/

/-- C4, counterexample: with a single dataset `"a"` that appears both in the
sampling-probability mapping and in the full-inclusion list, the union of
the configured names equals the dataset names, so `main`'s check raises no
error — contradicting the claim that present-in-both is fatal. -/
theorem C4_counterexample :
    "a" ∈ ({"a"} : Finset String) ∧ "a" ∈ ["a"] ∧
      config_mismatch {"a"} ["a"] {"a"} = false := by
  exact ⟨by decide, by decide, by decide⟩

/-- C4, amended: the configuration error fires iff the union of the
sampling-probability keys and the full-inclusion list differs from the set
of dataset names; a source present in both is not an error — the check
passes, and the source is consumed as a full-inclusion (non-sampling)
dataset and excluded from the sampling datasets. -/
theorem C4_both_listed_not_fatal (sk : Finset String) (ie : List String)
    (names : Finset String) (datasets : List (String × List String))
    (s : String) (_hs : s ∈ sk) (hie : s ∈ ie)
    (hnames : sk ∪ ie.toFinset = names) :
    config_mismatch sk ie names = false ∧
      s ∈ (split_datasets datasets ie).1.map Prod.fst ∧
      ∀ kv ∈ (split_datasets datasets ie).2, kv.1 ≠ s := by
  refine ⟨by simp [config_mismatch, hnames], ?_, ?_⟩
  · simp only [split_datasets, List.map_map, List.mem_map]
    exact ⟨s, hie, rfl⟩
  · intro kv hkv
    simp only [split_datasets, List.mem_filter, decide_eq_true_eq] at hkv
    intro hkvs
    exact hkv.2 (hkvs ▸ hie)

/-- Witness for C4's amended theorem: source `"a"` in both mappings, dataset
names `{"a"}`: no error, `"a"` is a non-sampling key, and no sampling entry
is named `"a"`. -/
theorem C4_witness :
    config_mismatch {"a"} ["a"] {"a"} = false ∧
      "a" ∈ (split_datasets [("a", ["x"])] ["a"]).1.map Prod.fst ∧
      ∀ kv ∈ (split_datasets [("a", ["x"])] ["a"]).2, kv.1 ≠ "a" :=
  C4_both_listed_not_fatal {"a"} ["a"] {"a"} [("a", ["x"])] "a"
    (by decide) (by decide) (by decide)

/-! ## Helper lemmas for the interleaver -/

theorem getD_cons_eraseIdx_perm {α : Type} (d : α) :
    ∀ (l : List α) (i : ℕ), i < l.length →
      (l.getD i d :: l.eraseIdx i).Perm l
  | a :: l, 0, _ => by simp
  | a :: l, i + 1, h => by
    simp only [List.getD_cons_succ, List.eraseIdx_cons_succ]
    have hi : i < l.length := by simpa using h
    exact (List.Perm.swap a (l.getD i d) (l.eraseIdx i)).trans
      ((getD_cons_eraseIdx_perm d l i hi).cons a)

theorem flatten_getD_eraseIdx_perm {α : Type} :
    ∀ (dss : List (List α)) (c : ℕ), c < dss.length →
      dss.flatten.Perm (dss.getD c [] ++ (dss.eraseIdx c).flatten)
  | d :: rest, 0, _ => by simp
  | d :: rest, c + 1, h => by
    simp only [List.flatten_cons, List.getD_cons_succ, List.eraseIdx_cons_succ]
    have hc : c < rest.length := by simpa using h
    have h1 := (flatten_getD_eraseIdx_perm rest c hc).append_left d
    have h2 : (d ++ (rest.getD c [] ++ (rest.eraseIdx c).flatten)).Perm
        (rest.getD c [] ++ (d ++ (rest.eraseIdx c).flatten)) := by
      rw [← List.append_assoc, ← List.append_assoc]
      exact (List.perm_append_comm).append_right _
    exact h1.trans h2

theorem eraseIdx_set {α : Type} :
    ∀ (l : List α) (c : ℕ) (x : α), (l.set c x).eraseIdx c = l.eraseIdx c
  | [], _, _ => rfl
  | _ :: _, 0, _ => rfl
  | a :: l, c + 1, x => by
    simp only [List.set_cons_succ, List.eraseIdx_cons_succ]
    exact congrArg (List.cons a) (eraseIdx_set l c x)

theorem getD_set_self {α : Type} :
    ∀ (l : List α) (c : ℕ) (x d : α), c < l.length → (l.set c x).getD c d = x
  | _ :: _, 0, _, _, _ => rfl
  | a :: l, c + 1, x, d, h => by
    simp only [List.set_cons_succ, List.getD_cons_succ]
    exact getD_set_self l c x d (by simpa using h)

theorem getD_ne_nil_lt {α : Type} (l : List (List α)) (c : ℕ)
    (h : l.getD c [] ≠ []) : c < l.length := by
  by_contra hc
  exact h (List.getD_eq_default _ _ (Nat.le_of_not_lt hc))

/-- The index chosen by `random.choices` from a single-element population is
always 0. -/
theorem choices_index_single (u : ℚ) (w : ℚ) : choices_index u [w] = 0 := by
  simp [choices_index]

/-- The multiset emitted by the sampling loop never exceeds the multiset of
items held in the sampling datasets at entry. -/
theorem phase2Fuel_multiset_le (rng : RandomState) (ws : List ℚ) :
    ∀ (fuel k : ℕ) (dss : List (List String)),
      ((phase2Fuel rng fuel k dss ws : List String) : Multiset String) ≤
        (dss.flatten : Multiset String) := by
  intro fuel
  induction fuel with
  | zero => intro k dss; simp [phase2Fuel]
  | succ fuel ih =>
    intro k dss
    unfold phase2Fuel
    by_cases h1 : dss.isEmpty
    · simp [h1]
    by_cases h2 : ws.length ≠ dss.length
    · simp [h1, h2]
    by_cases h3 : ws.sum ≤ 0
    · simp [h1, h2, h3]
    simp only [h1, h2, h3, if_false, Bool.false_eq_true]
    set c := choices_index (rng.choiceU k) ws with hc
    set ds := dss.getD c [] with hds
    by_cases h4 : ds.isEmpty
    · simp [h4]
    simp only [h4, if_false, Bool.false_eq_true]
    have hdsne : ds ≠ [] := fun h => by simp [h] at h4
    have hclen : c < dss.length := getD_ne_nil_lt dss c (hds ▸ hdsne)
    have hlenpos : 0 < ds.length := List.length_pos.mpr hdsne
    set i := rng.pick k % ds.length with hi
    have hilen : i < ds.length := Nat.mod_lt _ hlenpos
    have hrec := ih (k + 1) (dss.set c (ds.eraseIdx i))
    -- rewrite the right-hand side of the recursive bound
    have hperm2 : ((dss.set c (ds.eraseIdx i)).flatten).Perm
        (ds.eraseIdx i ++ (dss.eraseIdx c).flatten) := by
      have hlen : c < (dss.set c (ds.eraseIdx i)).length := by
        simpa using hclen
      have := flatten_getD_eraseIdx_perm (dss.set c (ds.eraseIdx i)) c hlen
      rwa [getD_set_self dss c (ds.eraseIdx i) [] hclen, eraseIdx_set] at this
    have hperm1 : dss.flatten.Perm (ds ++ (dss.eraseIdx c).flatten) := by
      have := flatten_getD_eraseIdx_perm dss c hclen
      rwa [← hds] at this
    have hds_split : ds.getD i "" ::ₘ (ds.eraseIdx i : Multiset String) =
        (ds : Multiset String) := by
      rw [Multiset.cons_coe, Multiset.coe_eq_coe]
      exact getD_cons_eraseIdx_perm "" ds i hilen
    calc ((ds.getD i "" :: phase2Fuel rng fuel (k + 1)
            (dss.set c (ds.eraseIdx i)) ws : List String) : Multiset String)
        = ds.getD i "" ::ₘ
            ↑(phase2Fuel rng fuel (k + 1) (dss.set c (ds.eraseIdx i)) ws) := by
          rw [Multiset.cons_coe]
      _ ≤ ds.getD i "" ::ₘ ↑((dss.set c (ds.eraseIdx i)).flatten) :=
          Multiset.cons_le_cons _ hrec
      _ = ds.getD i "" ::ₘ
            (↑(ds.eraseIdx i) + ((dss.eraseIdx c).flatten : Multiset String)) := by
          rw [Multiset.coe_eq_coe.mpr hperm2, ← Multiset.coe_add]
      _ = ↑ds + ((dss.eraseIdx c).flatten : Multiset String) := by
          rw [← Multiset.cons_add, hds_split]
      _ = ↑dss.flatten := by
          rw [Multiset.coe_eq_coe.mpr hperm1, ← Multiset.coe_add]

/-- With one sampling dataset of positive weight, every item is emitted
exactly once: the sampling loop's output is a permutation of the dataset. -/
theorem phase2_single_perm (rng : RandomState) (w : ℚ) (hw : 0 < w) :
    ∀ (n : ℕ) (ds : List String), ds.length = n → ∀ k,
      (phase2 rng k [ds] [w]).Perm ds := by
  intro n
  induction n with
  | zero =>
    intro ds hds k
    have hnil : ds = [] := List.length_eq_zero.mp hds
    subst hnil
    show (phase2Fuel rng _ k [[]] [w]).Perm []
    simp [phase2, phase2Fuel, not_le.mpr hw, choices_index_single]
  | succ n ih =>
    intro ds hds k
    have hdsne : ds ≠ [] := by
      intro h; rw [h] at hds; exact Nat.succ_ne_zero n hds.symm
    have hfuel : (([ds] : List (List String)).map List.length).sum + 1 = n + 2 := by
      simp [hds]
    have hlenpos : 0 < ds.length := List.length_pos.mpr hdsne
    set i := rng.pick k % ds.length with hi
    have hilen : i < ds.length := Nat.mod_lt _ hlenpos
    have hstep : phase2 rng k [ds] [w] =
        ds.getD i "" :: phase2Fuel rng (n + 1) (k + 1) [ds.eraseIdx i] [w] := by
      rw [phase2, hfuel]
      unfold phase2Fuel
      simp only [List.isEmpty_cons, List.length_cons, List.length_nil,
        List.getD_cons_zero, choices_index_single]
      rw [if_neg (by simp), if_neg (by simp), if_neg (by simp [not_le.mpr hw]),
        if_neg (by simp [hdsne]), ← hi]
      rfl
    have herase : (ds.eraseIdx i).length = n := by
      rw [List.length_eraseIdx_of_lt hilen, hds]
      omega
    have hrec : phase2Fuel rng (n + 1) (k + 1) [ds.eraseIdx i] [w] =
        phase2 rng (k + 1) [ds.eraseIdx i] [w] := by
      rw [phase2]
      congr 1
      simp [herase]
    rw [hstep, hrec]
    exact ((ih (ds.eraseIdx i) herase (k + 1)).cons _).trans
      (getD_cons_eraseIdx_perm "" ds i hilen)

/-! ## Claims about the interleaver -/

/-- C1: phase 2 of `interleave_datasets` terminates exactly at the first
draw whose chosen sampling collection is empty — as soon as the chosen
collection has no items left, nothing further is emitted (no skipping to
another collection); and with exactly one sampling collection of positive
weight and no non-sampling collections, the output is a permutation of that
collection (every item emitted exactly once), as in
`interleave([], [["a","b","c"]], [1.0], seed=42)`. -/
theorem C1_stop_at_first_empty_draw (rng : RandomState)
    (hshuf : rng.shuffle [] = []) :
    (∀ (k : ℕ) (dss : List (List String)) (ws : List ℚ),
        dss.isEmpty = false → ws.length = dss.length → 0 < ws.sum →
        dss.getD (choices_index (rng.choiceU k) ws) [] = [] →
        phase2 rng k dss ws = []) ∧
    (∀ (ds : List String) (w : ℚ), 0 < w →
        (interleave_datasets rng [] [ds] [w]).Perm ds) := by
  constructor
  · intro k dss ws h1 h2 h3 hchosen
    unfold phase2 phase2Fuel
    rw [List.getD_eq_getElem?_getD] at hchosen
    simp [h1, h2, not_le.mpr h3, hchosen]
  · intro ds w hw
    unfold interleave_datasets
    simp only [List.flatten_nil, hshuf, List.nil_append]
    exact phase2_single_perm rng w hw ds.length ds rfl 0

/-- Witness for C1: with the identity-shuffle random state,
`interleave([], [["a","b","c"]], [1.0])` is a permutation of
`["a","b","c"]`. -/
theorem C1_witness :
    (interleave_datasets idRandom [] [["a", "b", "c"]] [1]).Perm ["a", "b", "c"] :=
  (C1_stop_at_first_empty_draw idRandom rfl).2 ["a", "b", "c"] 1 (by norm_num)

/-- C6: `interleave_datasets` is deterministic — two calls given the same
seeded random stream (the behaviour of the `random` module after
`random.seed` is a function of the seed alone) and equal input collections
and weights emit identical output sequences, element for element. -/
theorem C6_deterministic (rng₁ rng₂ : RandomState)
    (nss₁ nss₂ sss₁ sss₂ : List (List String)) (ws₁ ws₂ : List ℚ)
    (hrng : rng₁ = rng₂) (hnss : nss₁ = nss₂) (hsss : sss₁ = sss₂)
    (hws : ws₁ = ws₂) :
    interleave_datasets rng₁ nss₁ sss₁ ws₁ =
      interleave_datasets rng₂ nss₂ sss₂ ws₂ := by
  subst hrng hnss hsss hws
  rfl

/-- Witness for C6: the same seed and inputs give the same output. -/
theorem C6_witness :
    interleave_datasets idRandom [["x"]] [["y"]] [1] =
      interleave_datasets idRandom [["x"]] [["y"]] [1] :=
  C6_deterministic idRandom idRandom [["x"]] [["x"]] [["y"]] [["y"]] [1] [1]
    rfl rfl rfl rfl

theorem interleaveStep_caller (rng : RandomState) (ws : List ℚ)
    (s : InterleaveState) :
    (interleaveStep rng ws s).caller_non_sampling = s.caller_non_sampling ∧
      (interleaveStep rng ws s).caller_sampling = s.caller_sampling := by
  refine ⟨?_, ?_⟩ <;>
    (unfold interleaveStep; dsimp only; repeat' split) <;> rfl

/-- C7: the generator never mutates the caller's collections — after any
number of steps of the interleaving state machine (phase 1 done at
initialisation, each step one iteration of the sampling loop popping only
from the deep-copied working storage), the caller-owned non-sampling and
sampling collection lists are element-for-element unchanged. -/
theorem C7_caller_collections_unchanged (rng : RandomState) (ws : List ℚ)
    (nss sss : List (List String)) (n : ℕ) :
    ((interleaveStep rng ws)^[n] (interleaveInit rng nss sss)).caller_non_sampling = nss ∧
      ((interleaveStep rng ws)^[n] (interleaveInit rng nss sss)).caller_sampling = sss := by
  induction n with
  | zero => exact ⟨rfl, rfl⟩
  | succ n ih =>
    rw [Function.iterate_succ_apply']
    have h := interleaveStep_caller rng ws
      ((interleaveStep rng ws)^[n] (interleaveInit rng nss sss))
    exact ⟨h.1.trans ih.1, h.2.trans ih.2⟩

/-- C8: the multiset of items emitted by `interleave_datasets` — and hence
of every prefix of its output — is contained in the multiset union of all
input collections: no item is emitted more often than it occurs across the
non-sampling and sampling datasets. -/
theorem C8_emitted_multiset_le (rng : RandomState)
    (nss sss : List (List String)) (ws : List ℚ) (pre : List String)
    (hshuf : ∀ l, (rng.shuffle l).Perm l)
    (hpre : pre <+: interleave_datasets rng nss sss ws) :
    (pre : Multiset String) ≤
      (nss.flatten : Multiset String) + (sss.flatten : Multiset String) := by
  have hfull : ((interleave_datasets rng nss sss ws : List String) : Multiset String) ≤
      (nss.flatten : Multiset String) + (sss.flatten : Multiset String) := by
    unfold interleave_datasets
    rw [← Multiset.coe_add]
    apply add_le_add
    · exact le_of_eq (Multiset.coe_eq_coe.mpr (hshuf nss.flatten))
    · exact phase2Fuel_multiset_le rng ws _ 0 sss
  exact le_trans (Multiset.coe_le.mpr hpre.sublist.subperm) hfull

/-- Witness for C8: the prefix `["x"]` of
`interleave([["x"]], [["y"]], [1])` is contained in the inputs' multiset
union. -/
theorem C8_witness :
    ((["x"] : List String) : Multiset String) ≤
      (([["x"]] : List (List String)).flatten : Multiset String) +
        (([["y"]] : List (List String)).flatten : Multiset String) :=
  C8_emitted_multiset_le idRandom [["x"]] [["y"]] [1] ["x"]
    (fun l => List.Perm.refl l)
    ⟨["y"], by norm_num [interleave_datasets, phase2, phase2Fuel,
      choices_index, cumWeights, idRandom]⟩

/-! ## Helper lemmas for the sentence extractor -/

theorem collapse_ne_nil : ∀ (c : Char) (rest : List Char),
    collapseSpaces (c :: rest) ≠ []
  | c, [] => by simp [collapseSpaces]
  | c, c' :: rest => by
    simp only [collapseSpaces]
    by_cases h : c = ' ' ∧ c' = ' '
    · rw [if_pos h]; exact collapse_ne_nil c' rest
    · rw [if_neg h]; exact List.cons_ne_nil _ _

theorem collapse_head : ∀ l : List Char, (collapseSpaces l).head? = l.head?
  | [] => rfl
  | [_] => rfl
  | c :: c' :: rest => by
    simp only [collapseSpaces]
    by_cases h : c = ' ' ∧ c' = ' '
    · rw [if_pos h, collapse_head (c' :: rest)]
      simp [h.1, h.2]
    · rw [if_neg h]
      rfl

theorem collapse_getLast : ∀ l : List Char,
    (collapseSpaces l).getLast? = l.getLast?
  | [] => rfl
  | [_] => rfl
  | c :: c' :: rest => by
    simp only [collapseSpaces]
    by_cases h : c = ' ' ∧ c' = ' '
    · rw [if_pos h, collapse_getLast (c' :: rest), List.getLast?_cons_cons]
    · rw [if_neg h]
      obtain ⟨x, xs, hx⟩ := List.exists_cons_of_ne_nil (collapse_ne_nil c' rest)
      rw [hx, List.getLast?_cons_cons, ← hx, collapse_getLast (c' :: rest),
        List.getLast?_cons_cons]

theorem collapse_cons_ne_space (c : Char) (hc : c ≠ ' ') (t : List Char) :
    collapseSpaces (c :: t) = c :: collapseSpaces t := by
  cases t with
  | nil => rfl
  | cons c' rest =>
    simp only [collapseSpaces]
    rw [if_neg (fun h => hc h.1)]

theorem collapse_snoc_ne_space (c : Char) (hc : c ≠ ' ') :
    ∀ t : List Char, collapseSpaces (t ++ [c]) = collapseSpaces t ++ [c]
  | [] => rfl
  | [a] => by
    show collapseSpaces (a :: c :: []) = collapseSpaces [a] ++ [c]
    simp only [collapseSpaces]
    rw [if_neg (fun h => hc h.2)]
    rfl
  | a :: a' :: rest => by
    show collapseSpaces (a :: a' :: (rest ++ [c])) =
      collapseSpaces (a :: a' :: rest) ++ [c]
    simp only [collapseSpaces]
    by_cases h : a = ' ' ∧ a' = ' '
    · rw [if_pos h, if_pos h]
      exact collapse_snoc_ne_space c hc (a' :: rest)
    · rw [if_neg h, if_neg h]
      exact congrArg (List.cons a) (collapse_snoc_ne_space c hc (a' :: rest))

theorem noSpace_prefix_collapse :
    ∀ (p l : List Char), (∀ c ∈ p, c ≠ ' ') → p <+: collapseSpaces l → p <+: l := by
  intro p
  induction p with
  | nil => intro l _ _; exact List.nil_prefix
  | cons c p' ih =>
    intro l hnosp hpre
    have hc : c ≠ ' ' := hnosp c (List.mem_cons_self c p')
    have hlne : l ≠ [] := by
      intro h
      subst h
      rw [show collapseSpaces [] = [] from rfl, List.prefix_nil] at hpre
      exact List.cons_ne_nil c p' hpre
    obtain ⟨a, t, rfl⟩ := List.exists_cons_of_ne_nil hlne
    obtain ⟨tail, htail⟩ := hpre
    have hhead : (collapseSpaces (a :: t)).head? = some a := by
      rw [collapse_head]
      rfl
    have hac : a = c := by
      rw [← htail] at hhead
      simpa using hhead.symm
    subst hac
    rw [collapse_cons_ne_space a hc t, List.cons_append] at htail
    have htl : p' ++ tail = collapseSpaces t := by
      injection htail with _ h2
    have hp' : p' <+: t :=
      ih t (fun x hx => hnosp x (List.mem_cons_of_mem a hx)) ⟨tail, htl⟩
    exact (List.prefix_cons_inj a).mpr hp'

theorem noSpace_suffix_collapse (p : List Char) :
    ∀ l, (∀ c ∈ p, c ≠ ' ') → p <:+ collapseSpaces l → p <:+ l := by
  induction p using List.reverseRecOn with
  | nil => intro l _ _; exact List.nil_suffix
  | append_singleton p' c ih =>
    intro l hnosp hsuf
    have hc : c ≠ ' ' := hnosp c (by simp)
    obtain ⟨t, ht⟩ := hsuf
    have hlast : (collapseSpaces l).getLast? = some c := by
      rw [← ht, ← List.append_assoc]
      exact List.getLast?_concat _
    rw [collapse_getLast] at hlast
    obtain ⟨l₀, rfl⟩ := List.getLast?_eq_some_iff.mp hlast
    have hsuf2 : p' ++ [c] <:+ collapseSpaces l₀ ++ [c] := by
      rw [← collapse_snoc_ne_space c hc l₀]
      exact ⟨t, ht⟩
    have h1 : (p' ++ [c]).reverse <+: (collapseSpaces l₀ ++ [c]).reverse :=
      List.reverse_prefix.mpr hsuf2
    rw [List.reverse_append, List.reverse_append, List.reverse_singleton,
      List.singleton_append, List.singleton_append] at h1
    have h3 : p' <:+ collapseSpaces l₀ :=
      List.reverse_prefix.mp ((List.prefix_cons_inj c).mp h1)
    have hp' : p' <:+ l₀ :=
      ih l₀ (fun x hx => hnosp x (List.mem_append_left [c] hx)) h3
    obtain ⟨u, hu⟩ := hp'
    exact ⟨u, by rw [← List.append_assoc, hu]⟩

/-- A sentence has no whitespace at its edges: its first and last characters
(when present) are not among the characters stripped by `strip(" \t\n")`. -/
def edgeClean (s : List Char) : Prop :=
  (∀ c, s.head? = some c → isStripChar c = false) ∧
  (∀ c, s.getLast? = some c → isStripChar c = false)

theorem dropWhile_eq_self_of_head {p : Char → Bool} {l : List Char}
    (h : ∀ c, l.head? = some c → p c = false) : l.dropWhile p = l := by
  cases l with
  | nil => rfl
  | cons a t =>
    rw [List.dropWhile_cons, h a rfl]
    simp

theorem pyStripSTN_eq_self {l : List Char} (h : edgeClean l) :
    pyStripSTN l = l := by
  unfold pyStripSTN pyStripChars
  rw [dropWhile_eq_self_of_head h.1,
    dropWhile_eq_self_of_head fun c hc => h.2 c ((List.head?_reverse l) ▸ hc),
    List.reverse_reverse]

theorem edgeClean_collapse {l : List Char} (h : edgeClean l) :
    edgeClean (collapseSpaces l) :=
  ⟨fun c hc => h.1 c (collapse_head l ▸ hc),
   fun c hc => h.2 c (collapse_getLast l ▸ hc)⟩

theorem isStripChar_replace_eq_false {c : Char} (h : isStripChar c = false) :
    isStripChar (if c = '\n' then ' ' else c) = false := by
  have hne : ¬ c = '\n' := fun he => by simp [he, isStripChar] at h
  rw [if_neg hne]
  exact h

theorem edgeClean_replaceNewlines {s : List Char} (h : edgeClean s) :
    edgeClean (replaceNewlines s) := by
  constructor
  · intro c hc
    rw [replaceNewlines, List.head?_map] at hc
    cases hs : s.head? with
    | none => rw [hs] at hc; simp at hc
    | some c₀ =>
      rw [hs, Option.map_some'] at hc
      have hc' := Option.some.inj hc
      rw [← hc']
      exact isStripChar_replace_eq_false (h.1 c₀ hs)
  · intro c hc
    rw [replaceNewlines, List.getLast?_map] at hc
    cases hs : s.getLast? with
    | none => rw [hs] at hc; simp at hc
    | some c₀ =>
      rw [hs, Option.map_some'] at hc
      have hc' := Option.some.inj hc
      rw [← hc']
      exact isStripChar_replace_eq_false (h.2 c₀ hs)

/-! ## Claims about the sentence extractor -/

/-- C3, counterexample: the ellipsis filter runs before whitespace collapsing
and stripping, so the tokenized sentence `" ...abc"` — which starts with a
space, not with `"..."` — passes the filter and is then stripped to
`"...abc"`: the final output contains a sentence starting with `"..."`. -/
theorem C3_counterexample :
    extract_sentences (fun s => [s]) [" ...abc".data] 0 = ["...abc".data] ∧
      ellipsisChars.isPrefixOf "...abc".data = true := by
  exact ⟨by decide, by decide⟩

/-- C3, amended: provided every sentence produced by the tokenizer has no
leading or trailing whitespace (space, tab or newline), no sentence in the
final output of `extract_sentences` — after whitespace collapsing and
stripping — starts or ends with `"..."`.  (Without that proviso the claim
fails, because the ellipsis filter is applied before normalization.) -/
theorem C3_no_ellipsis_at_edges (tok : List Char → List (List Char))
    (corpus : List (List Char)) (min_sentence_length : ℕ)
    (htok : ∀ line s, s ∈ tok line → edgeClean s) :
    ∀ s ∈ extract_sentences tok corpus min_sentence_length,
      ellipsisChars.isPrefixOf s = false ∧ ellipsisChars.isSuffixOf s = false := by
  intro s hs
  simp only [extract_sentences, List.mem_filter, List.mem_map,
    List.mem_flatMap] at hs
  obtain ⟨⟨a, ⟨r, ⟨⟨⟨s₀, ⟨line, _hcorp, hstok⟩, hrep⟩, hell⟩, _habb⟩,
    hcol⟩, hstrip⟩, _hlen⟩ := hs
  subst hcol
  subst hstrip
  subst hrep
  have hclean : edgeClean (replaceNewlines s₀) :=
    edgeClean_replaceNewlines (htok line s₀ hstok)
  have hstripEq := pyStripSTN_eq_self (edgeClean_collapse hclean)
  rw [hstripEq]
  simp only [Bool.and_eq_true, Bool.not_eq_true'] at hell
  obtain ⟨hpre, hsuf⟩ := hell
  constructor
  · refine Bool.eq_false_iff.mpr fun ht => ?_
    have hp := noSpace_prefix_collapse ellipsisChars (replaceNewlines s₀)
      (by decide) (List.isPrefixOf_iff_prefix.mp ht)
    rw [List.isPrefixOf_iff_prefix.mpr hp] at hpre
    exact Bool.true_eq_false.mp hpre
  · refine Bool.eq_false_iff.mpr fun ht => ?_
    have hp := noSpace_suffix_collapse ellipsisChars (replaceNewlines s₀)
      (by decide) (List.isSuffixOf_iff_suffix.mp ht)
    rw [List.isSuffixOf_iff_suffix.mpr hp] at hsuf
    exact Bool.true_eq_false.mp hsuf

/-- Witness for C3's amended theorem: with a tokenizer returning the stripped
sentence `"abcd"`, the extracted sentence has no ellipsis at either edge. -/
theorem C3_witness :
    ellipsisChars.isPrefixOf "abcd".data = false ∧
      ellipsisChars.isSuffixOf "abcd".data = false :=
  C3_no_ellipsis_at_edges (fun _ => ["abcd".data]) ["abcd".data] 0
    (fun _line s hs => by
      simp only [List.mem_singleton] at hs
      subst hs
      refine ⟨fun c hc => ?_, fun c hc => ?_⟩
      · have hac : 'a' = c := Option.some.inj hc
        rw [← hac]
        decide
      · have hdc : 'd' = c := Option.some.inj hc
        rw [← hdc]
        decide)
    "abcd".data (by decide)

end TtsText
